import Mathlib

/-!
Verification of the audio–text timeline synchronization engine of
`app_genai_one_v4_fix.py`.

Times are modelled as rationals (the Python code uses floats; every literal
used in a concrete statement below is chosen far from any rounding boundary).
Python strings are modelled as `List Char`, byte strings as `List Nat`.
-/

namespace AudioBook

attribute [local semireducible] Rat.add Rat.sub Rat.mul Rat.inv

/-- A timeline segment: the Python dict `{'start': .., 'end': .., 'text': ..}`. -/
structure Seg where
  startSec : ℚ
  endSec : ℚ
  text : List Char
deriving DecidableEq

/-- Per-item update performed by the loop body of `adjust_timeline_for_deletion`
(src lines 154-176).  Branch 1: segment entirely before the cut is kept as is.
Branch 2: segment starting at or after `del_end - 0.05` is shifted left by the
gap, floored at 0.  Branch 3: a straddling segment keeps its start and has its
end pulled left by the gap, floored at its own start. -/
def deletionItem (delS delE : ℚ) (item : Seg) : Seg :=
  if item.endSec ≤ delS then item
  else if item.startSec ≥ delE - 1/20 then
    ⟨max 0 (item.startSec - (delE - delS)), max 0 (item.endSec - (delE - delS)), item.text⟩
  else
    ⟨item.startSec, max item.startSec (item.endSec - (delE - delS)), item.text⟩

/-- `adjust_timeline_for_deletion` (src lines 154-176): the loop appends every
item, each updated by `deletionItem`, so at the value level it is a map. -/
def adjust_timeline_for_deletion (timeline : List Seg) (delS delE : ℚ) : List Seg :=
  timeline.map (deletionItem delS delE)

/-- Per-item update performed by the loop body of `adjust_timeline_for_patch`
(src lines 181-204).  `diff = new_duration - (target_end - target_start)`.
Branch 1: segment starting at or after `target_end - 0.1` is shifted by `diff`.
Branch 2: segment overlapping the patched span has its end moved by `diff`.
Otherwise the segment is untouched. -/
def patchItem (tS tE newDur : ℚ) (item : Seg) : Seg :=
  if item.startSec ≥ tE - 1/10 then
    ⟨item.startSec + (newDur - (tE - tS)), item.endSec + (newDur - (tE - tS)), item.text⟩
  else if item.endSec > tS ∧ item.startSec < tE then
    ⟨item.startSec, item.endSec + (newDur - (tE - tS)), item.text⟩
  else item

/-- `adjust_timeline_for_patch` (src lines 181-204): the loop updates every
item in place and returns the list, so at the value level it is a map. -/
def adjust_timeline_for_patch (timeline : List Seg) (tS tE newDur : ℚ) : List Seg :=
  timeline.map (patchItem tS tE newDur)

/-- Ordering relation between consecutive timeline segments. -/
def segOrd (a b : Seg) : Prop := a.endSec ≤ b.startSec

instance : DecidableRel segOrd := fun a b =>
  inferInstanceAs (Decidable (a.endSec ≤ b.startSec))

/-- The spec's Timeline invariant: consecutive segments do not overlap
(`end_i ≤ start_{i+1}`), all starts are nonnegative and every segment has
`start < end`. -/
def orderedTimeline (t : List Seg) : Prop :=
  List.Chain' segOrd t ∧ ∀ s ∈ t, 0 ≤ s.startSec ∧ s.startSec < s.endSec

instance decChainSegOrd : ∀ (t : List Seg), Decidable (List.Chain' segOrd t)
  | [] => decidable_of_iff True (by simp)
  | [_] => decidable_of_iff True (by simp)
  | a :: b :: rest =>
    haveI := decChainSegOrd (b :: rest)
    decidable_of_iff (segOrd a b ∧ List.Chain' segOrd (b :: rest)) List.chain'_cons.symm

instance (t : List Seg) : Decidable (orderedTimeline t) :=
  inferInstanceAs (Decidable (_ ∧ _))

/-- C5: on the Timeline `[{0,5,"A"},{5,10,"B"},{10,15,"C"}]`, deleting the
range `[6,8]` (gap 2) keeps `A`, truncates straddling `B` to end 8 with its
start unchanged, and shifts trailing `C` left by 2. -/
theorem C5_deletion_scenario :
    adjust_timeline_for_deletion
      [⟨0, 5, ['A']⟩, ⟨5, 10, ['B']⟩, ⟨10, 15, ['C']⟩] 6 8 =
      [⟨0, 5, ['A']⟩, ⟨5, 8, ['B']⟩, ⟨8, 13, ['C']⟩] := by
  decide

/-- C4: on the Timeline `[{0,5,"A"},{5,10,"B"},{10,15,"C"}]`, patching the
span `[5,10]` to a new duration of 7 (diff +2) leaves `A` unchanged, extends
overlapping `B`'s end by 2 with its start unchanged, and shifts `C` by +2. -/
theorem C4_patch_scenario :
    adjust_timeline_for_patch
      [⟨0, 5, ['A']⟩, ⟨5, 10, ['B']⟩, ⟨10, 15, ['C']⟩] 5 10 7 =
      [⟨0, 5, ['A']⟩, ⟨5, 12, ['B']⟩, ⟨12, 17, ['C']⟩] := by
  decide

/-- C1: the ordering invariant is NOT preserved in general.  On the ordered
Timeline `[{4,10,"A"},{10,20,"B"}]` the deletion `[0,9]` (gap 9) turns `A`
into the degenerate `{4,4}` (end floored at its own start) while `B` is
shifted fully left to `{1,11}`, so the output starts overlap and `A` no
longer satisfies `start < end`. -/
theorem C1_counterexample :
    orderedTimeline [⟨4, 10, ['A']⟩, ⟨10, 20, ['B']⟩] ∧
      ¬ orderedTimeline (adjust_timeline_for_deletion [⟨4, 10, ['A']⟩, ⟨10, 20, ['B']⟩] 0 9) := by
  decide

theorem deletionItem_before {delS delE : ℚ} {s : Seg} (h : s.endSec ≤ delS) :
    deletionItem delS delE s = s := by
  simp [deletionItem, if_pos h]

theorem deletionItem_after {delS delE : ℚ} {s : Seg} (h0 : 0 ≤ delS) (hle : delS ≤ delE)
    (hwf : s.startSec < s.endSec) (h : delE ≤ s.startSec) :
    deletionItem delS delE s = ⟨s.startSec - (delE - delS), s.endSec - (delE - delS), s.text⟩ := by
  rw [deletionItem, if_neg (by linarith), if_pos (by linarith),
    max_eq_right (by linarith), max_eq_right (by linarith)]

theorem patchItem_before {tS tE newDur : ℚ} {s : Seg}
    (hend : s.endSec ≤ tS) (hstart : s.startSec < tE - 1/10) :
    patchItem tS tE newDur s = s := by
  rw [patchItem, if_neg (by linarith), if_neg (by rintro ⟨h1, -⟩; linarith)]

theorem patchItem_after {tS tE newDur : ℚ} {s : Seg} (h : tE ≤ s.startSec) :
    patchItem tS tE newDur s =
      ⟨s.startSec + (newDur - (tE - tS)), s.endSec + (newDur - (tE - tS)), s.text⟩ := by
  rw [patchItem, if_pos (by linarith)]

/-- C2: for a Timeline whose segments all satisfy `0 ≤ start ≤ end` and a
deletion range of positive width, every segment produced by
`adjust_timeline_for_deletion` still satisfies `0 ≤ start` and `start ≤ end`:
no negative times, no inverted intervals. -/
theorem C2_deletion_no_inverted (t : List Seg) (delS delE : ℚ)
    (hwf : ∀ s ∈ t, 0 ≤ s.startSec ∧ s.startSec ≤ s.endSec)
    (_hgap : 0 < delE - delS) :
    ∀ s ∈ adjust_timeline_for_deletion t delS delE,
      0 ≤ s.startSec ∧ s.startSec ≤ s.endSec := by
  intro s hs
  rw [adjust_timeline_for_deletion, List.mem_map] at hs
  obtain ⟨a, ha, rfl⟩ := hs
  obtain ⟨ha0, hale⟩ := hwf a ha
  rw [deletionItem]
  split_ifs with h1 h2
  · exact ⟨ha0, hale⟩
  · exact ⟨le_max_left 0 _, max_le_max le_rfl (by linarith)⟩
  · exact ⟨ha0, le_max_left _ _⟩

theorem C2_witness :
    0 ≤ (Seg.mk 0 4 ['A']).startSec ∧ (Seg.mk 0 4 ['A']).startSec ≤ (Seg.mk 0 4 ['A']).endSec :=
  C2_deletion_no_inverted [⟨0, 5, ['A']⟩] 1 2 (by decide) (by decide) ⟨0, 4, ['A']⟩ (by decide)

/-- C7: deleting the empty range `[x,x]` (gap 0) is a no-op on any Timeline
whose segments satisfy `0 ≤ start ≤ end`: the returned Timeline has exactly
the same segment values as the input. -/
theorem C7_zero_gap_deletion_noop (t : List Seg) (x : ℚ)
    (hwf : ∀ s ∈ t, 0 ≤ s.startSec ∧ s.startSec ≤ s.endSec) :
    adjust_timeline_for_deletion t x x = t := by
  induction t with
  | nil => rfl
  | cons a t ih =>
    obtain ⟨h0, hle⟩ := hwf a (List.mem_cons_self a t)
    have ht := fun s hs => hwf s (List.mem_cons_of_mem a hs)
    have hitem : deletionItem x x a = a := by
      obtain ⟨st, en, tx⟩ := a
      rw [deletionItem]
      split_ifs with h1 h2
      · rfl
      · simp [sub_self, sub_zero, max_eq_right h0, max_eq_right (h0.trans hle)]
      · simp [sub_self, sub_zero, max_eq_right hle]
    show deletionItem x x a :: adjust_timeline_for_deletion t x x = a :: t
    rw [hitem, ih ht]

theorem C7_witness :
    adjust_timeline_for_deletion [⟨0, 1, ['A']⟩] 5 5 = [⟨0, 1, ['A']⟩] :=
  C7_zero_gap_deletion_noop [⟨0, 1, ['A']⟩] 5 (by decide)

theorem chain'_imp_mem {R S : Seg → Seg → Prop} :
    ∀ {l : List Seg}, List.Chain' R l →
      (∀ a ∈ l, ∀ b ∈ l, R a b → S a b) → List.Chain' S l := by
  intro l
  induction l with
  | nil => intro _ _; exact List.chain'_nil
  | cons a t ih =>
    match t with
    | [] => intro _ _; exact List.chain'_singleton a
    | b :: u =>
      intro h hmem
      rw [List.chain'_cons] at h ⊢
      refine ⟨hmem a (by simp) b (by simp) h.1, ih h.2 ?_⟩
      intro x hx y hy hr
      exact hmem x (List.mem_cons_of_mem a hx) y (List.mem_cons_of_mem a hy) hr

/-- C1 (amended): the ordering invariant is preserved provided no segment
straddles the edited range and no segment start falls inside the tolerance
window.  For `adjust_timeline_for_deletion` this means every segment ends at
or before `delStart` or starts at or after `delEnd` (with `0 ≤ delStart ≤
delEnd`); for `adjust_timeline_for_patch` every segment either ends at or
before `targetStart` while starting below `targetEnd - 0.1`, or starts at or
after `targetEnd` (with `0 ≤ targetStart ≤ targetEnd` and a nonnegative new
duration). -/
theorem C1_invariant_preserved :
    (∀ (t : List Seg) (delS delE : ℚ), orderedTimeline t → 0 ≤ delS → delS ≤ delE →
      (∀ s ∈ t, s.endSec ≤ delS ∨ delE ≤ s.startSec) →
      orderedTimeline (adjust_timeline_for_deletion t delS delE)) ∧
    (∀ (t : List Seg) (tS tE newDur : ℚ), orderedTimeline t → 0 ≤ tS → tS ≤ tE →
      0 ≤ newDur →
      (∀ s ∈ t, (s.endSec ≤ tS ∧ s.startSec < tE - 1/10) ∨ tE ≤ s.startSec) →
      orderedTimeline (adjust_timeline_for_patch t tS tE newDur)) := by
  constructor
  · intro t delS delE ⟨hchain, hwf⟩ h0 hle hcl
    constructor
    · rw [adjust_timeline_for_deletion, List.chain'_map]
      refine chain'_imp_mem hchain ?_
      intro a ha b hb hr
      show (deletionItem delS delE a).endSec ≤ (deletionItem delS delE b).startSec
      obtain ⟨ha0, haw⟩ := hwf a ha
      obtain ⟨hb0, hbw⟩ := hwf b hb
      rcases hcl a ha with hca | hca <;> rcases hcl b hb with hcb | hcb
      · rw [deletionItem_before hca, deletionItem_before hcb]; exact hr
      · rw [deletionItem_before hca, deletionItem_after h0 hle hbw hcb]
        simp only
        linarith [segOrd, hr]
      · exfalso; unfold segOrd at hr; linarith
      · rw [deletionItem_after h0 hle haw hca, deletionItem_after h0 hle hbw hcb]
        simp only
        unfold segOrd at hr
        linarith
    · intro s hs
      rw [adjust_timeline_for_deletion, List.mem_map] at hs
      obtain ⟨a, ha, rfl⟩ := hs
      obtain ⟨ha0, haw⟩ := hwf a ha
      rcases hcl a ha with hca | hca
      · rw [deletionItem_before hca]; exact ⟨ha0, haw⟩
      · rw [deletionItem_after h0 hle haw hca]
        constructor
        · simp only; linarith
        · simp only; linarith
  · intro t tS tE newDur ⟨hchain, hwf⟩ h0 hle hnd hcl
    constructor
    · rw [adjust_timeline_for_patch, List.chain'_map]
      refine chain'_imp_mem hchain ?_
      intro a ha b hb hr
      show (patchItem tS tE newDur a).endSec ≤ (patchItem tS tE newDur b).startSec
      obtain ⟨ha0, haw⟩ := hwf a ha
      obtain ⟨hb0, hbw⟩ := hwf b hb
      unfold segOrd at hr
      rcases hcl a ha with ⟨hca1, hca2⟩ | hca <;> rcases hcl b hb with ⟨hcb1, hcb2⟩ | hcb
      · rw [patchItem_before hca1 hca2, patchItem_before hcb1 hcb2]; exact hr
      · rw [patchItem_before hca1 hca2, patchItem_after hcb]
        simp only
        linarith
      · exfalso; linarith
      · rw [patchItem_after hca, patchItem_after hcb]
        simp only
        linarith
    · intro s hs
      rw [adjust_timeline_for_patch, List.mem_map] at hs
      obtain ⟨a, ha, rfl⟩ := hs
      obtain ⟨ha0, haw⟩ := hwf a ha
      rcases hcl a ha with ⟨hca1, hca2⟩ | hca
      · rw [patchItem_before hca1 hca2]; exact ⟨ha0, haw⟩
      · rw [patchItem_after hca]
        constructor
        · simp only; linarith
        · simp only; linarith

theorem C1_witness :
    orderedTimeline (adjust_timeline_for_deletion [⟨0, 1, ['A']⟩, ⟨2, 3, ['B']⟩] 1 2) ∧
      orderedTimeline (adjust_timeline_for_patch [⟨0, 1, ['A']⟩, ⟨2, 3, ['B']⟩] 1 (3/2) 1) :=
  ⟨C1_invariant_preserved.1 [⟨0, 1, ['A']⟩, ⟨2, 3, ['B']⟩] 1 2
      (by decide) (by decide) (by decide) (by decide),
    C1_invariant_preserved.2 [⟨0, 1, ['A']⟩, ⟨2, 3, ['B']⟩] 1 (3/2) 1
      (by decide) (by decide) (by decide) (by decide) (by decide)⟩

/-!
Object-level model of the two transforms.  Python dicts are mutable objects;
identity is modelled as an address `Nat` and a heap `Nat → Seg` maps each
address to the dict's current field values.
-/

/-- In-place mutation of the dict at address `a`. -/
def heapWrite (h : Nat → Seg) (a : Nat) (s : Seg) : Nat → Seg :=
  fun b => if b = a then s else h b

/-- `adjust_timeline_for_deletion` at the object level (src lines 154-176):
the loop reads the dict at each address, in branches 2 and 3 assigns new
`start`/`end` values into that same dict, and appends the same address to
`new_timeline`.  Returns the final heap together with the returned list. -/
def adjust_timeline_for_deletion_objs (delS delE : ℚ) :
    (Nat → Seg) → List Nat → (Nat → Seg) × List Nat
  | h, [] => (h, [])
  | h, a :: rest =>
    if (h a).endSec ≤ delS then
      let r := adjust_timeline_for_deletion_objs delS delE h rest
      (r.1, a :: r.2)
    else if (h a).startSec ≥ delE - 1/20 then
      let r := adjust_timeline_for_deletion_objs delS delE
        (heapWrite h a ⟨max 0 ((h a).startSec - (delE - delS)),
          max 0 ((h a).endSec - (delE - delS)), (h a).text⟩) rest
      (r.1, a :: r.2)
    else
      let r := adjust_timeline_for_deletion_objs delS delE
        (heapWrite h a ⟨(h a).startSec,
          max (h a).startSec ((h a).endSec - (delE - delS)), (h a).text⟩) rest
      (r.1, a :: r.2)

/-- `adjust_timeline_for_patch` at the object level (src lines 181-204): the
loop assigns into the dicts in place and the function returns the input list
object itself, so only the heap changes. -/
def adjust_timeline_for_patch_objs (tS tE newDur : ℚ) :
    (Nat → Seg) → List Nat → Nat → Seg
  | h, [] => h
  | h, a :: rest =>
    if (h a).startSec ≥ tE - 1/10 then
      adjust_timeline_for_patch_objs tS tE newDur
        (heapWrite h a ⟨(h a).startSec + (newDur - (tE - tS)),
          (h a).endSec + (newDur - (tE - tS)), (h a).text⟩) rest
    else if (h a).endSec > tS ∧ (h a).startSec < tE then
      adjust_timeline_for_patch_objs tS tE newDur
        (heapWrite h a ⟨(h a).startSec, (h a).endSec + (newDur - (tE - tS)), (h a).text⟩) rest
    else
      adjust_timeline_for_patch_objs tS tE newDur h rest

theorem heapWrite_same (h : Nat → Seg) (a : Nat) : heapWrite h a (h a) = h := by
  funext b
  show (if b = a then h a else h b) = h b
  split
  · rename_i hba; rw [hba]
  · rfl

theorem del_objs_cons (delS delE : ℚ) (h : Nat → Seg) (a : Nat) (rest : List Nat) :
    adjust_timeline_for_deletion_objs delS delE h (a :: rest) =
      ((adjust_timeline_for_deletion_objs delS delE
          (heapWrite h a (deletionItem delS delE (h a))) rest).1,
        a :: (adjust_timeline_for_deletion_objs delS delE
          (heapWrite h a (deletionItem delS delE (h a))) rest).2) := by
  simp only [adjust_timeline_for_deletion_objs, deletionItem]
  split_ifs with h1 h2
  · rw [heapWrite_same]
  · rfl
  · rfl

theorem patch_objs_cons (tS tE newDur : ℚ) (h : Nat → Seg) (a : Nat) (rest : List Nat) :
    adjust_timeline_for_patch_objs tS tE newDur h (a :: rest) =
      adjust_timeline_for_patch_objs tS tE newDur
        (heapWrite h a (patchItem tS tE newDur (h a))) rest := by
  simp only [adjust_timeline_for_patch_objs, patchItem]
  split_ifs with h1 h2
  · rfl
  · rfl
  · rw [heapWrite_same]

theorem del_objs_untouched (delS delE : ℚ) :
    ∀ (l : List Nat) (h : Nat → Seg) (a : Nat), a ∉ l →
      (adjust_timeline_for_deletion_objs delS delE h l).1 a = h a := by
  intro l
  induction l with
  | nil => intro h a _; rfl
  | cons b rest ih =>
    intro h a hna
    have hab : a ≠ b := fun e => hna (e ▸ List.mem_cons_self b rest)
    have hrest : a ∉ rest := fun e => hna (List.mem_cons_of_mem b e)
    rw [del_objs_cons]
    rw [ih _ a hrest]
    show (if a = b then _ else h a) = h a
    rw [if_neg hab]

theorem patch_objs_untouched (tS tE newDur : ℚ) :
    ∀ (l : List Nat) (h : Nat → Seg) (a : Nat), a ∉ l →
      adjust_timeline_for_patch_objs tS tE newDur h l a = h a := by
  intro l
  induction l with
  | nil => intro h a _; rfl
  | cons b rest ih =>
    intro h a hna
    have hab : a ≠ b := fun e => hna (e ▸ List.mem_cons_self b rest)
    have hrest : a ∉ rest := fun e => hna (List.mem_cons_of_mem b e)
    rw [patch_objs_cons]
    rw [ih _ a hrest]
    show (if a = b then _ else h a) = h a
    rw [if_neg hab]

theorem del_objs_spec (delS delE : ℚ) :
    ∀ (l : List Nat) (h : Nat → Seg), l.Nodup →
      (adjust_timeline_for_deletion_objs delS delE h l).2 = l ∧
      l.map (adjust_timeline_for_deletion_objs delS delE h l).1 =
        adjust_timeline_for_deletion (l.map h) delS delE := by
  intro l
  induction l with
  | nil => intro h _; exact ⟨rfl, rfl⟩
  | cons a rest ih =>
    intro h hnd
    rw [List.nodup_cons] at hnd
    obtain ⟨hna, hnd⟩ := hnd
    obtain ⟨ih1, ih2⟩ := ih (heapWrite h a (deletionItem delS delE (h a))) hnd
    rw [del_objs_cons]
    refine ⟨by rw [ih1], ?_⟩
    simp only [adjust_timeline_for_deletion, List.map_cons]
    congr 1
    · rw [del_objs_untouched _ _ _ _ _ hna]
      show (if a = a then _ else _) = _
      rw [if_pos rfl]
    · rw [adjust_timeline_for_deletion] at ih2
      rw [ih2]
      congr 1
      apply List.map_congr_left
      intro b hb
      show (if b = a then _ else h b) = h b
      rw [if_neg (fun e : b = a => hna (e ▸ hb))]

theorem patch_objs_spec (tS tE newDur : ℚ) :
    ∀ (l : List Nat) (h : Nat → Seg), l.Nodup →
      l.map (adjust_timeline_for_patch_objs tS tE newDur h l) =
        adjust_timeline_for_patch (l.map h) tS tE newDur := by
  intro l
  induction l with
  | nil => intro h _; rfl
  | cons a rest ih =>
    intro h hnd
    rw [List.nodup_cons] at hnd
    obtain ⟨hna, hnd⟩ := hnd
    have ih2 := ih (heapWrite h a (patchItem tS tE newDur (h a))) hnd
    rw [patch_objs_cons]
    simp only [adjust_timeline_for_patch, List.map_cons]
    congr 1
    · rw [patch_objs_untouched _ _ _ _ _ _ hna]
      show (if a = a then _ else _) = _
      rw [if_pos rfl]
    · rw [adjust_timeline_for_patch] at ih2
      rw [ih2]
      congr 1
      apply List.map_congr_left
      intro b hb
      show (if b = a then _ else h b) = h b
      rw [if_neg (fun e : b = a => hna (e ▸ hb))]

/-- Heap holding a single timeline dict `{0,5,"A"}` at every address. -/
def c3heap0 : Nat → Seg := fun _ => ⟨0, 5, ['A']⟩

/-- C3: the transforms are NOT pure at the object level.  Running the
deletion `[0,1]` over the one-segment timeline `[{0,5,"A"}]` mutates the
input segment dict in place: after the call the dict at address 0 holds
`{0,4,"A"}`, not its original value. -/
theorem C3_counterexample :
    (adjust_timeline_for_deletion_objs 0 1 c3heap0 [0]).1 0 ≠ c3heap0 0 := by
  decide

/-- C3 (amended): at the value level each transform computes exactly the
per-segment mapping of its pure counterpart, but it does so by mutating the
input timeline's segment dicts in place: after the call the input addresses
hold the output values, `adjust_timeline_for_deletion` returns a new list of
the same (now mutated) segment objects, and `adjust_timeline_for_patch`
returns the input list object itself. -/
theorem C3_mutating_refinement :
    (∀ (delS delE : ℚ) (h : Nat → Seg) (l : List Nat), l.Nodup →
      (adjust_timeline_for_deletion_objs delS delE h l).2 = l ∧
      l.map (adjust_timeline_for_deletion_objs delS delE h l).1 =
        adjust_timeline_for_deletion (l.map h) delS delE) ∧
    (∀ (tS tE newDur : ℚ) (h : Nat → Seg) (l : List Nat), l.Nodup →
      l.map (adjust_timeline_for_patch_objs tS tE newDur h l) =
        adjust_timeline_for_patch (l.map h) tS tE newDur) :=
  ⟨fun delS delE h l hnd => del_objs_spec delS delE l h hnd,
    fun tS tE newDur h l hnd => patch_objs_spec tS tE newDur l h hnd⟩

/-- Two-dict heap used to witness the C3 refinement theorem. -/
def c3heapW : Nat → Seg := fun n => if n = 0 then ⟨0, 5, ['A']⟩ else ⟨5, 10, ['B']⟩

theorem C3_witness :
    ((adjust_timeline_for_deletion_objs 0 1 c3heapW [0, 1]).2 = [0, 1] ∧
      [0, 1].map (adjust_timeline_for_deletion_objs 0 1 c3heapW [0, 1]).1 =
        adjust_timeline_for_deletion ([0, 1].map c3heapW) 0 1) ∧
    [0, 1].map (adjust_timeline_for_patch_objs 0 1 2 c3heapW [0, 1]) =
      adjust_timeline_for_patch ([0, 1].map c3heapW) 0 1 2 :=
  ⟨C3_mutating_refinement.1 0 1 c3heapW [0, 1] (by decide),
    C3_mutating_refinement.2 0 1 2 c3heapW [0, 1] (by decide)⟩

/-!
Container normalizer `add_silence_padding` (src lines 210-267).  Byte strings
are `List Nat`; the stdlib `wave` header parser is not part of the
repository, so it is abstracted as an explicit `parseWav` argument which
returns `none` exactly when `wave.open` raises `wave.Error`.
-/

/-- Parameters and frame payload read from a parsed container header. -/
structure WavData where
  nchannels : Nat
  sampwidth : Nat
  framerate : Nat
  frames : List Nat
deriving DecidableEq

/-- The 4-byte container magic signature `b'RIFF'`. -/
def riffMagic : List Nat := [82, 73, 70, 70]

/-- `add_silence_padding` (src lines 210-267), up to the re-wrapped WAV
payload handed to the writer: rejects payloads shorter than 100 bytes;
parses the header when the `RIFF` signature is present, keeping the default
profile (mono, 16-bit, 24000 Hz) and the whole payload as raw data when the
parse fails; uses that same default profile for signature-less payloads; and
prepends `int(framerate * duration_sec)` frames of zero bytes. -/
def add_silence_padding (parseWav : List Nat → Option WavData)
    (audio_bytes : List Nat) (duration_sec : ℚ) : Option WavData :=
  if audio_bytes.length < 100 then none
  else
    match
      (if audio_bytes.take 4 = riffMagic then
        match parseWav audio_bytes with
        | some w => (w.nchannels, w.sampwidth, w.framerate, w.frames)
        | none => (1, 2, 24000, audio_bytes)
      else (1, 2, 24000, audio_bytes)) with
    | (ch, sw, fr, raw) =>
      some ⟨ch, sw, fr,
        List.replicate (((fr : ℚ) * duration_sec).floor.toNat * ch * sw) 0 ++ raw⟩

/-- C8: `add_silence_padding` returns the error value `none` for every
payload shorter than 100 bytes; a payload of at least 100 bytes that does
not begin with `RIFF` is treated whole as raw PCM at the default profile
(mono, 16-bit samples, 24000 Hz); and when the signature is present but the
header parser fails, the same default-profile fallback is used. -/
theorem C8_normalizer_fallbacks :
    (∀ (parseWav : List Nat → Option WavData) (bytes : List Nat) (d : ℚ),
      bytes.length < 100 → add_silence_padding parseWav bytes d = none) ∧
    (∀ (parseWav : List Nat → Option WavData) (bytes : List Nat) (d : ℚ),
      100 ≤ bytes.length → bytes.take 4 ≠ riffMagic →
      add_silence_padding parseWav bytes d =
        some ⟨1, 2, 24000,
          List.replicate ((((24000 : ℚ) * d).floor.toNat) * 1 * 2) 0 ++ bytes⟩) ∧
    (∀ (parseWav : List Nat → Option WavData) (bytes : List Nat) (d : ℚ),
      100 ≤ bytes.length → bytes.take 4 = riffMagic → parseWav bytes = none →
      add_silence_padding parseWav bytes d =
        some ⟨1, 2, 24000,
          List.replicate ((((24000 : ℚ) * d).floor.toNat) * 1 * 2) 0 ++ bytes⟩) := by
  refine ⟨?_, ?_, ?_⟩
  · intro parseWav bytes d hlen
    rw [add_silence_padding, if_pos hlen]
  · intro parseWav bytes d hlen hmag
    rw [add_silence_padding, if_neg (by omega), if_neg hmag]
    norm_num
  · intro parseWav bytes d hlen hmag hparse
    rw [add_silence_padding, if_neg (by omega), if_pos hmag, hparse]
    norm_num

theorem C8_witness :
    (add_silence_padding (fun _ => none) (List.replicate 10 0) (1/2) = none) ∧
    (add_silence_padding (fun _ => none) (List.replicate 100 0) (1/2) =
      some ⟨1, 2, 24000,
        List.replicate ((((24000 : ℚ) * (1/2)).floor.toNat) * 1 * 2) 0 ++ List.replicate 100 0⟩) ∧
    (add_silence_padding (fun _ => none) (riffMagic ++ List.replicate 96 0) (1/2) =
      some ⟨1, 2, 24000,
        List.replicate ((((24000 : ℚ) * (1/2)).floor.toNat) * 1 * 2) 0 ++
          (riffMagic ++ List.replicate 96 0)⟩) :=
  ⟨C8_normalizer_fallbacks.1 (fun _ => none) (List.replicate 10 0) (1/2) (by decide),
    C8_normalizer_fallbacks.2.1 (fun _ => none) (List.replicate 100 0) (1/2)
      (by simp) (by decide),
    C8_normalizer_fallbacks.2.2 (fun _ => none) (riffMagic ++ List.replicate 96 0) (1/2)
      (by simp [riffMagic]) (by decide) rfl⟩

/-!
Edit Coordinator (src lines 1219-1242 and 1267-1302).  The session state is
the chapter's audio file bytes together with the optional cached timeline
(`verify_key in st.session_state`).  The Splice Engine calls
(`delete_audio_range`, `patch_audio_segment`) and the speech-generation +
padding step producing `new_part` are abstracted as arguments; each returns
`none` on failure.
-/

/-- The state a deletion or patch edit can modify: the audio file's bytes and
the session's cached timeline, when one exists. -/
structure EditorState where
  audio : List Nat
  timeline : Option (List Seg)
deriving DecidableEq

/-- Deletion flow of the coordinator (src lines 1219-1242): call
`delete_audio_range`; only if it returns bytes, write them and re-index the
cached timeline with `adjust_timeline_for_deletion`. -/
def run_deletion_edit (delete_audio_range : List Nat → ℚ → ℚ → Option (List Nat))
    (delS delE : ℚ) (st : EditorState) : EditorState :=
  match delete_audio_range st.audio delS delE with
  | none => st
  | some newAudio =>
    ⟨newAudio, st.timeline.map (fun t => adjust_timeline_for_deletion t delS delE)⟩

/-- Patch flow of the coordinator (src lines 1267-1302): generate the
replacement (`new_part`); only if it exists, measure its duration and call
`patch_audio_segment`; only if that returns bytes, write them and re-index
the cached timeline with `adjust_timeline_for_patch`. -/
def run_patch_edit (new_part : Option (List Nat)) (measure : List Nat → ℚ)
    (patch_audio_segment : List Nat → List Nat → ℚ → ℚ → Option (List Nat))
    (startT endT : ℚ) (st : EditorState) : EditorState :=
  match new_part with
  | none => st
  | some np =>
    match patch_audio_segment st.audio np startT endT with
    | none => st
    | some patched =>
      ⟨patched, st.timeline.map (fun t => adjust_timeline_for_patch t startT endT (measure np))⟩

/-- C9: when the Splice Engine call returns `none`, the coordinator leaves
both the audio bytes and the timeline untouched and applies no Timeline
transform; the transform is applied exactly when the splice succeeded, and
then the new audio and the re-indexed timeline are committed together. -/
theorem C9_audio_success_gates_index :
    (∀ (dar : List Nat → ℚ → ℚ → Option (List Nat)) (delS delE : ℚ) (st : EditorState),
      dar st.audio delS delE = none → run_deletion_edit dar delS delE st = st) ∧
    (∀ (dar : List Nat → ℚ → ℚ → Option (List Nat)) (delS delE : ℚ) (st : EditorState)
      (b : List Nat), dar st.audio delS delE = some b →
      run_deletion_edit dar delS delE st =
        ⟨b, st.timeline.map (fun t => adjust_timeline_for_deletion t delS delE)⟩) ∧
    (∀ (np : Option (List Nat)) (measure : List Nat → ℚ)
      (pas : List Nat → List Nat → ℚ → ℚ → Option (List Nat)) (s e : ℚ) (st : EditorState),
      (np = none ∨ ∃ x, np = some x ∧ pas st.audio x s e = none) →
      run_patch_edit np measure pas s e st = st) ∧
    (∀ (npv : List Nat) (measure : List Nat → ℚ)
      (pas : List Nat → List Nat → ℚ → ℚ → Option (List Nat)) (s e : ℚ) (st : EditorState)
      (b : List Nat), pas st.audio npv s e = some b →
      run_patch_edit (some npv) measure pas s e st =
        ⟨b, st.timeline.map (fun t => adjust_timeline_for_patch t s e (measure npv))⟩) := by
  refine ⟨?_, ?_, ?_, ?_⟩
  · intro dar delS delE st hfail
    rw [run_deletion_edit, hfail]
  · intro dar delS delE st b hok
    rw [run_deletion_edit, hok]
  · intro np measure pas s e st hfail
    rcases hfail with hnone | ⟨x, hx, hpas⟩
    · subst hnone; rfl
    · subst hx
      simp only [run_patch_edit.eq_def]
      rw [hpas]
  · intro npv measure pas s e st b hok
    simp only [run_patch_edit.eq_def]
    rw [hok]

theorem C9_witness :
    (run_deletion_edit (fun _ _ _ => none) 0 1 ⟨[7], some [⟨0, 1, ['A']⟩]⟩ =
      ⟨[7], some [⟨0, 1, ['A']⟩]⟩) ∧
    (run_patch_edit (some [9]) (fun _ => 1) (fun _ _ _ _ => some [8]) 0 1
        ⟨[7], some [⟨0, 1, ['A']⟩]⟩ =
      ⟨[8], (some [⟨0, 1, ['A']⟩]).map (fun t => adjust_timeline_for_patch t 0 1 1)⟩) :=
  ⟨C9_audio_success_gates_index.1 (fun _ _ _ => none) 0 1 ⟨[7], some [⟨0, 1, ['A']⟩]⟩ rfl,
    C9_audio_success_gates_index.2.2.2 [9] (fun _ => 1) (fun _ _ _ _ => some [8]) 0 1
      ⟨[7], some [⟨0, 1, ['A']⟩]⟩ [8] rfl⟩

/-!
Text utilities.  Python `str.strip()` removes whitespace from both ends; the
whitespace characters relevant here are the ASCII ones (space, tab, LF, VT,
FF, CR).
-/

/-- Characters removed by Python's `strip()` / matched by `\s`. -/
def isPySpace (c : Char) : Bool :=
  decide (c.toNat = 32 ∨ c.toNat = 9 ∨ c.toNat = 10 ∨ c.toNat = 13 ∨
    c.toNat = 11 ∨ c.toNat = 12)

/-- Python `text.strip()` on a list of characters. -/
def pyStrip (l : List Char) : List Char :=
  ((l.dropWhile isPySpace).reverse.dropWhile isPySpace).reverse

/-- The merger's emission test `current_text and current_text[-1] in
['.', '?', '!']` (src line 554). -/
def endsWithTerminator (l : List Char) : Bool :=
  match l.getLast? with
  | some c => c = '.' || c = '?' || c = '!'
  | none => false

/-- End-time clamping of a fragment (src line 541): `if item['end'] >
real_duration: item['end'] = real_duration`. -/
def clampEnd (total : ℚ) (f : Seg) : ℚ :=
  if total < f.endSec then total else f.endSec

/-- One merge step of the sentence merger (src lines 543-550): seed the
buffer with the (clamped) fragment, or append the fragment's stripped text
with a single-space separator and extend the buffer's end to the fragment's
clamped end (the buffer's start never changes once seeded). -/
def mergedBuf (buf : Option Seg) (f : Seg) (total : ℚ) : Seg :=
  match buf with
  | none => ⟨f.startSec, clampEnd total f, f.text⟩
  | some b => ⟨b.startSec, clampEnd total f, pyStrip b.text ++ [' '] ++ pyStrip f.text⟩

/-- The sentence-merger loop of `get_transcription_with_timestamps`
(src lines 532-562): drop fragments with `start ≥ end` or `start ≥
real_duration`, clamp overshooting ends, accumulate fragments in a buffer,
emit the buffer whenever its stripped text ends in `.`, `?` or `!`, and
flush a leftover buffer at the end. -/
def mergeLoop (total : ℚ) : List Seg → Option Seg → List Seg
  | [], none => []
  | [], some b => [b]
  | f :: fs, buf =>
    if f.endSec ≤ f.startSec then mergeLoop total fs buf
    else if total ≤ f.startSec then mergeLoop total fs buf
    else if endsWithTerminator (pyStrip (mergedBuf buf f total).text) then
      mergedBuf buf f total :: mergeLoop total fs none
    else mergeLoop total fs (some (mergedBuf buf f total))

/-- The merger stage of `get_transcription_with_timestamps` (src lines
532-562), from the parsed fragment list and the measured duration. -/
def get_transcription_with_timestamps (real_duration : ℚ) (raw_data : List Seg) :
    List Seg :=
  mergeLoop real_duration raw_data none

/-!
Verification text normalizer `normalize_text_strict` (src lines 597-600):
replace every character that is not a Hangul syllable, ASCII letter or digit
by a space, collapse whitespace runs to single spaces, and strip.
-/

/-- Characters kept by the first substitution `[^가-힣a-zA-Z0-9]`:
Hangul syllables U+AC00-U+D7A3, ASCII letters and digits. -/
def keepChar (c : Char) : Bool :=
  decide ((44032 ≤ c.toNat ∧ c.toNat ≤ 55203) ∨ (97 ≤ c.toNat ∧ c.toNat ≤ 122) ∨
    (65 ≤ c.toNat ∧ c.toNat ≤ 90) ∨ (48 ≤ c.toNat ∧ c.toNat ≤ 57))

/-- First substitution: every non-kept character becomes a space. -/
def subNonKeep (l : List Char) : List Char :=
  l.map (fun c => if keepChar c then c else ' ')

/-- Second substitution `\s+` → single space: each maximal whitespace run is
replaced by one space character. -/
def collapseWs : List Char → List Char
  | [] => []
  | a :: rest =>
    if isPySpace a then
      match rest with
      | [] => [' ']
      | b :: _ => if isPySpace b then collapseWs rest else ' ' :: collapseWs rest
    else a :: collapseWs rest

/-- `normalize_text_strict` (src lines 597-600). -/
def normalize_text_strict (text : List Char) : List Char :=
  pyStrip (collapseWs (subNonKeep text))

/-- C6: the merger CAN emit a segment with `start ≥ end` when the raw
fragment list is not ordered by start time: merging the fragments
`[{5,6,"a"}, {0,1,"b."}]` with total duration 10 produces the single segment
`{5,1,"a b."}`, whose start exceeds its end, because the buffer keeps the
first fragment's start but takes the last fragment's end. -/
theorem C6_counterexample :
    ¬ ∀ s ∈ get_transcription_with_timestamps 10 [⟨5, 6, ['a']⟩, ⟨0, 1, ['b', '.']⟩],
        s.startSec < s.endSec := by
  decide

theorem mergeLoop_sound (total : ℚ) :
    ∀ (fs : List Seg) (buf : Option Seg),
      List.Pairwise (fun a b => a.startSec ≤ b.startSec) fs →
      (∀ b, buf = some b →
        b.startSec < b.endSec ∧ b.endSec ≤ total ∧ ∀ f ∈ fs, b.startSec ≤ f.startSec) →
      ∀ s ∈ mergeLoop total fs buf, s.startSec < s.endSec ∧ s.endSec ≤ total := by
  intro fs
  induction fs with
  | nil =>
    intro buf hp hbuf s hs
    cases buf with
    | none => simp [mergeLoop] at hs
    | some b =>
      have hsb : s = b := by simpa [mergeLoop] using hs
      subst hsb
      obtain ⟨x, y, -⟩ := hbuf s rfl
      exact ⟨x, y⟩
  | cons f fs ih =>
    intro buf hp hbuf s hs
    rw [List.pairwise_cons] at hp
    obtain ⟨hf, hp⟩ := hp
    have hkeep : ∀ (b : Seg), buf = some b →
        b.startSec < b.endSec ∧ b.endSec ≤ total ∧ ∀ g ∈ fs, b.startSec ≤ g.startSec := by
      intro b hb
      obtain ⟨x, y, z⟩ := hbuf b hb
      exact ⟨x, y, fun g hg => z g (List.mem_cons_of_mem f hg)⟩
    rw [mergeLoop] at hs
    by_cases h1 : f.endSec ≤ f.startSec
    · rw [if_pos h1] at hs
      exact ih buf hp hkeep s hs
    · rw [if_neg h1] at hs
      by_cases h2 : total ≤ f.startSec
      · rw [if_pos h2] at hs
        exact ih buf hp hkeep s hs
      · rw [if_neg h2] at hs
        push_neg at h1 h2
        have hc1 : f.startSec < clampEnd total f := by
          rw [clampEnd]
          split
          · exact h2
          · exact h1
        have hc2 : clampEnd total f ≤ total := by
          rw [clampEnd]
          split
          · exact le_refl total
          · rename_i hcc
            push_neg at hcc
            exact hcc
        have hb' : (mergedBuf buf f total).startSec < (mergedBuf buf f total).endSec ∧
            (mergedBuf buf f total).endSec ≤ total ∧
            ∀ g ∈ fs, (mergedBuf buf f total).startSec ≤ g.startSec := by
          cases buf with
          | none => exact ⟨hc1, hc2, fun g hg => hf g hg⟩
          | some b =>
            obtain ⟨x, y, z⟩ := hbuf b rfl
            have hbf : b.startSec ≤ f.startSec := z f (List.mem_cons_self f fs)
            exact ⟨lt_of_le_of_lt hbf hc1, hc2,
              fun g hg => z g (List.mem_cons_of_mem f hg)⟩
        by_cases h3 : endsWithTerminator (pyStrip (mergedBuf buf f total).text)
        · rw [if_pos h3] at hs
          rcases List.mem_cons.mp hs with hs | hs
          · subst hs
            exact ⟨hb'.1, hb'.2.1⟩
          · exact ih none hp (fun b hb => Option.noConfusion hb) s hs
        · rw [if_neg h3] at hs
          refine ih (some (mergedBuf buf f total)) hp ?_ s hs
          intro b hb
          injection hb with hbe
          subst hbe
          exact hb'

/-- C6 (amended): for every raw fragment list that is ordered by start time
(the contract of §4.2) and every total duration, each segment emitted by the
merger of `get_transcription_with_timestamps` satisfies `start < end` and
`end ≤ totalDurationSec`: invalid and out-of-range fragments are discarded
and overshooting ends are clamped. -/
theorem C6_merger_bounds (total : ℚ) (raw : List Seg)
    (hord : List.Pairwise (fun a b => a.startSec ≤ b.startSec) raw) :
    ∀ s ∈ get_transcription_with_timestamps total raw,
      s.startSec < s.endSec ∧ s.endSec ≤ total :=
  mergeLoop_sound total raw none hord (fun b hb => Option.noConfusion hb)

theorem C6_witness :
    (Seg.mk 0 2 ['h', 'i', '.']).startSec < (Seg.mk 0 2 ['h', 'i', '.']).endSec ∧
      (Seg.mk 0 2 ['h', 'i', '.']).endSec ≤ 5 :=
  C6_merger_bounds 5 [⟨0, 2, ['h', 'i', '.']⟩] (by simp) ⟨0, 2, ['h', 'i', '.']⟩ (by decide)

theorem keep_not_space {c : Char} (h : keepChar c = true) : isPySpace c = false := by
  rw [keepChar, decide_eq_true_eq] at h
  rw [isPySpace, decide_eq_false_iff_not]
  omega

theorem dropWhile_head_not (p : Char → Bool) :
    ∀ (l : List Char) (c : Char), (l.dropWhile p).head? = some c → p c = false := by
  intro l
  induction l with
  | nil => intro c hc; simp at hc
  | cons a rest ih =>
    intro c hc
    by_cases ha : p a
    · rw [List.dropWhile_cons_of_pos ha] at hc
      exact ih c hc
    · rw [List.dropWhile_cons_of_neg ha] at hc
      rw [List.head?_cons, Option.some.injEq] at hc
      subst hc
      simpa using ha

theorem pyStrip_getLast_not_space (l : List Char) (c : Char)
    (hc : (pyStrip l).getLast? = some c) : isPySpace c = false := by
  rw [pyStrip, List.getLast?_reverse] at hc
  exact dropWhile_head_not _ _ c hc

theorem pyStrip_head_not_space (l : List Char) (c : Char)
    (hc : (pyStrip l).head? = some c) : isPySpace c = false := by
  rw [pyStrip, List.head?_reverse] at hc
  obtain ⟨r, hr⟩ := List.dropWhile_suffix (l := (l.dropWhile isPySpace).reverse) isPySpace
  have hne : (l.dropWhile isPySpace).reverse.dropWhile isPySpace ≠ [] := by
    intro he
    rw [he] at hc
    simp at hc
  have heq : ((l.dropWhile isPySpace).reverse.dropWhile isPySpace).getLast? =
      (l.dropWhile isPySpace).reverse.getLast? := by
    conv_rhs => rw [← hr]
    rw [List.getLast?_append_of_ne_nil r hne]
  rw [heq, List.getLast?_reverse] at hc
  exact dropWhile_head_not _ _ c hc

theorem collapse_cons_nonspace {a : Char} (h : isPySpace a = false) (l : List Char) :
    collapseWs (a :: l) = a :: collapseWs l := by
  cases l <;> simp [collapseWs, h]

theorem collapse_sub : ∀ (l : List Char) (c : Char), c ∈ collapseWs l → c = ' ' ∨ c ∈ l := by
  intro l
  induction l with
  | nil => intro c hc; simp [collapseWs] at hc
  | cons a rest ih =>
    intro c hc
    by_cases ha : isPySpace a
    · cases rest with
      | nil =>
        have he : collapseWs [a] = [' '] := by simp [collapseWs, ha]
        rw [he] at hc
        simp at hc
        exact Or.inl hc
      | cons b u =>
        by_cases hb : isPySpace b
        · have he : collapseWs (a :: b :: u) = collapseWs (b :: u) := by
            simp [collapseWs, ha, hb]
          rw [he] at hc
          rcases ih c hc with h | h
          · exact Or.inl h
          · exact Or.inr (List.mem_cons_of_mem a h)
        · have he : collapseWs (a :: b :: u) = ' ' :: collapseWs (b :: u) := by
            simp [collapseWs, ha, hb]
          rw [he] at hc
          rcases List.mem_cons.mp hc with h | h
          · exact Or.inl h
          · rcases ih c h with h2 | h2
            · exact Or.inl h2
            · exact Or.inr (List.mem_cons_of_mem a h2)
    · have ha' : isPySpace a = false := by simpa using ha
      rw [collapse_cons_nonspace ha'] at hc
      rcases List.mem_cons.mp hc with h | h
      · exact Or.inr (h ▸ List.mem_cons_self a rest)
      · rcases ih c h with h2 | h2
        · exact Or.inl h2
        · exact Or.inr (List.mem_cons_of_mem a h2)

theorem collapse_chain : ∀ (l : List Char),
    List.Chain' (fun a b => isPySpace a = false ∨ isPySpace b = false) (collapseWs l) := by
  intro l
  induction l with
  | nil => simp [collapseWs]
  | cons a rest ih =>
    by_cases ha : isPySpace a
    · cases rest with
      | nil =>
        have he : collapseWs [a] = [' '] := by simp [collapseWs, ha]
        rw [he]
        exact List.chain'_singleton _
      | cons b u =>
        by_cases hb : isPySpace b
        · have he : collapseWs (a :: b :: u) = collapseWs (b :: u) := by
            simp [collapseWs, ha, hb]
          rw [he]
          exact ih
        · have hb' : isPySpace b = false := by simpa using hb
          have he : collapseWs (a :: b :: u) = ' ' :: collapseWs (b :: u) := by
            simp [collapseWs, ha, hb]
          rw [he, collapse_cons_nonspace hb']
          rw [collapse_cons_nonspace hb'] at ih
          exact List.chain'_cons.mpr ⟨Or.inr hb', ih⟩
    · have ha' : isPySpace a = false := by simpa using ha
      rw [collapse_cons_nonspace ha']
      exact List.chain'_cons'.mpr ⟨fun y _ => Or.inl ha', ih⟩

theorem chain'_pyStrip {R : Char → Char → Prop} (hsym : ∀ a b, R a b → R b a)
    {l : List Char} (h : List.Chain' R l) : List.Chain' R (pyStrip l) := by
  rw [pyStrip]
  have h1 : List.Chain' R (l.dropWhile isPySpace) := h.suffix (List.dropWhile_suffix _)
  have h2 : List.Chain' (flip R) (l.dropWhile isPySpace) :=
    h1.imp (fun a b hab => hsym a b hab)
  have h3 : List.Chain' R (l.dropWhile isPySpace).reverse := List.chain'_reverse.mpr h2
  have h4 : List.Chain' R ((l.dropWhile isPySpace).reverse.dropWhile isPySpace) :=
    h3.suffix (List.dropWhile_suffix _)
  have h5 : List.Chain' (flip R) ((l.dropWhile isPySpace).reverse.dropWhile isPySpace) :=
    h4.imp (fun a b hab => hsym a b hab)
  exact List.chain'_reverse.mpr h5

theorem pyStrip_subset {l : List Char} {c : Char} (hc : c ∈ pyStrip l) : c ∈ l := by
  rw [pyStrip, List.mem_reverse] at hc
  have h1 := (List.dropWhile_sublist (l := (l.dropWhile isPySpace).reverse) isPySpace).subset hc
  rw [List.mem_reverse] at h1
  exact (List.dropWhile_sublist isPySpace).subset h1

theorem subNonKeep_chars (l : List Char) :
    ∀ c ∈ subNonKeep l, keepChar c = true ∨ c = ' ' := by
  intro c hc
  rw [subNonKeep, List.mem_map] at hc
  obtain ⟨a, -, rfl⟩ := hc
  by_cases h : keepChar a
  · rw [if_pos h]
    exact Or.inl h
  · rw [if_neg h]
    exact Or.inr rfl

theorem subNonKeep_id {l : List Char} (hc : ∀ c ∈ l, keepChar c = true ∨ c = ' ') :
    subNonKeep l = l := by
  induction l with
  | nil => rfl
  | cons a rest ih =>
    have ha := hc a (List.mem_cons_self a rest)
    show (if keepChar a then a else ' ') :: subNonKeep rest = a :: rest
    rw [ih (fun c h => hc c (List.mem_cons_of_mem a h))]
    congr 1
    rcases ha with h | h
    · rw [if_pos h]
    · subst h
      exact ite_self ' '

theorem collapseWs_id : ∀ {l : List Char},
    (∀ c ∈ l, isPySpace c = false ∨ c = ' ') →
    List.Chain' (fun a b => isPySpace a = false ∨ isPySpace b = false) l →
    collapseWs l = l := by
  intro l
  induction l with
  | nil => intro _ _; rfl
  | cons a rest ih =>
    intro hc hchain
    by_cases ha : isPySpace a
    · have ha' : a = ' ' := by
        rcases hc a (List.mem_cons_self a rest) with h | h
        · simp [h] at ha
        · exact h
      cases rest with
      | nil => simp [collapseWs, ha, ha']
      | cons b u =>
        have hb : isPySpace b = false := by
          rcases (List.chain'_cons.mp hchain).1 with h | h
          · simp [h] at ha
          · exact h
        have he : collapseWs (a :: b :: u) = ' ' :: collapseWs (b :: u) := by
          simp [collapseWs, ha, hb]
        rw [he,
          ih (fun c h => hc c (List.mem_cons_of_mem a h)) (List.chain'_cons.mp hchain).2, ha']
    · have ha' : isPySpace a = false := by simpa using ha
      rw [collapse_cons_nonspace ha',
        ih (fun c h => hc c (List.mem_cons_of_mem a h)) (List.chain'_cons'.mp hchain).2]

theorem pyStrip_id {l : List Char}
    (hh : ∀ c, l.head? = some c → isPySpace c = false)
    (hl : ∀ c, l.getLast? = some c → isPySpace c = false) : pyStrip l = l := by
  have h1 : l.dropWhile isPySpace = l := by
    cases l with
    | nil => rfl
    | cons a rest => rw [List.dropWhile_cons_of_neg (by simp [hh a rfl])]
  rw [pyStrip, h1]
  have h2 : l.reverse.dropWhile isPySpace = l.reverse := by
    rcases hrev : l.reverse with - | ⟨a, rest⟩
    · rfl
    · have hla : l.getLast? = some a := by
        rw [← List.head?_reverse, hrev]
        rfl
      rw [List.dropWhile_cons_of_neg (by simp [hl a hla])]
  rw [h2, List.reverse_reverse]

/-- C10: `normalize_text_strict` is shape-canonical and idempotent: its
output consists only of Hangul syllables, ASCII letters and digits plus
single separating spaces (no two adjacent spaces, no leading or trailing
space), and applying it to its own output returns that output unchanged. -/
theorem C10_normalize_canonical (s : List Char) :
    ((∀ c ∈ normalize_text_strict s, keepChar c = true ∨ c = ' ') ∧
      List.Chain' (fun a b => isPySpace a = false ∨ isPySpace b = false)
        (normalize_text_strict s) ∧
      (∀ c, (normalize_text_strict s).head? = some c → c ≠ ' ') ∧
      (∀ c, (normalize_text_strict s).getLast? = some c → c ≠ ' ')) ∧
    normalize_text_strict (normalize_text_strict s) = normalize_text_strict s := by
  have hchars : ∀ c ∈ normalize_text_strict s, keepChar c = true ∨ c = ' ' := by
    intro c hc
    rw [normalize_text_strict] at hc
    have h1 := pyStrip_subset hc
    rcases collapse_sub _ c h1 with h | h
    · exact Or.inr h
    · exact subNonKeep_chars s c h
  have hchain : List.Chain' (fun a b => isPySpace a = false ∨ isPySpace b = false)
      (normalize_text_strict s) := by
    rw [normalize_text_strict]
    exact chain'_pyStrip (fun a b hab => hab.symm) (collapse_chain _)
  have hhead : ∀ c, (normalize_text_strict s).head? = some c → isPySpace c = false := by
    intro c hc
    rw [normalize_text_strict] at hc
    exact pyStrip_head_not_space _ c hc
  have hlast : ∀ c, (normalize_text_strict s).getLast? = some c → isPySpace c = false := by
    intro c hc
    rw [normalize_text_strict] at hc
    exact pyStrip_getLast_not_space _ c hc
  refine ⟨⟨hchars, hchain, ?_, ?_⟩, ?_⟩
  · intro c hc he
    subst he
    exact absurd (hhead ' ' hc) (by decide)
  · intro c hc he
    subst he
    exact absurd (hlast ' ' hc) (by decide)
  · have echars : ∀ c ∈ normalize_text_strict s, isPySpace c = false ∨ c = ' ' := by
      intro c hc
      rcases hchars c hc with h | h
      · exact Or.inl (keep_not_space h)
      · exact Or.inr h
    calc normalize_text_strict (normalize_text_strict s)
        = pyStrip (collapseWs (subNonKeep (normalize_text_strict s))) := rfl
      _ = normalize_text_strict s := by
          rw [subNonKeep_id hchars, collapseWs_id echars hchain, pyStrip_id hhead hlast]

end AudioBook
